import Mathlib

/-!
Verification of the trace-generation engine of the binary-insertion-sort
visualizer (`src/src/app/page.tsx`).

The program's core is one pure function, `generateSteps`, which runs binary
insertion sort on a JavaScript number array and pushes one immutable
`SortingStep` snapshot per event, plus two playback helpers `stepForward`
and `stepBackward` that clamp a cursor into the step list.

Embedding notes.
* JavaScript arrays of numbers become `List Int`; in-place mutation becomes
  explicit state passing (each loop is one recursive function returning the
  steps it pushed together with the array state it leaves behind).
* `arr[k]` reads become `getI arr k` (`List.getD` at `k.toNat`, default `0`);
  every read performed by the program is in bounds, so the default is inert.
* `Math.floor((low + high) / 2)` is `(low + high) / 2` on `Int`: Lean's `Int`
  division by the positive literal `2` rounds toward negative infinity,
  exactly `Math.floor`.
* The Japanese `description` narration strings are presentation text and are
  not modelled; every other field of the step records is.
-/

/-- SortState, the discriminant of a step (`page.tsx` line 21). -/
inductive SortState where
  | search
  | shift
  | insert
  | init
  | complete
  deriving DecidableEq, Repr

/-- SortingStep record (`page.tsx` lines 23-31), minus the narration string
`description`, which is presentation text.  `indices` is the field the spec
calls `workingIndices`, `targetIdx` the field it calls `targetIndex`. -/
structure SortingStep where
  array : List Int
  indices : List Int
  targetIdx : Option Int := none
  searchRange : Option (Int × Int) := none
  type : SortState
  codeLine : Option Nat := none
  deriving DecidableEq, Repr

/-- JavaScript array read `arr[k]`: defaulting read at index `k`. -/
def getI (arr : List Int) (k : Int) : Int :=
  arr.getD k.toNat 0

/-- Step pushed at `page.tsx` lines 63-69 (the `init` step). -/
def initStep (arr : List Int) : SortingStep :=
  { array := arr, indices := [], type := .init, codeLine := some 0 }

/-- Step pushed at `page.tsx` lines 76-83: the search-start step of outer
index `i`.  Note that it carries `targetIdx` but no `searchRange` and no
`indices`; the initial range appears only in the narration string. -/
def searchStartStep (arr : List Int) (i : Int) : SortingStep :=
  { array := arr, indices := [], targetIdx := some i, type := .search,
    codeLine := some 3 }

/-- Step pushed at `page.tsx` lines 87-95: one binary-search probe. -/
def probeStep (arr : List Int) (i low mid high : Int) : SortingStep :=
  { array := arr, indices := [low, mid, high], searchRange := some (low, high),
    targetIdx := some i, type := .search, codeLine := some 11 }

/-- Step pushed at `page.tsx` lines 105-112: the resolved-position step. -/
def resolvedStep (arr : List Int) (i pos : Int) : SortingStep :=
  { array := arr, indices := [pos], targetIdx := some i, type := .search,
    codeLine := some 16 }

/-- Step pushed at `page.tsx` lines 116-123: one shift step, snapshot taken
before the assignment `arr[j] = arr[j-1]`. -/
def shiftStep (arr : List Int) (i j : Int) : SortingStep :=
  { array := arr, indices := [j, j - 1], targetIdx := some i, type := .shift,
    codeLine := some 6 }

/-- Step pushed at `page.tsx` lines 128-134: the insert step, snapshot taken
after `arr[pos] = val`.  The source pushes no `targetIdx` here. -/
def insertStep (arr : List Int) (pos : Int) : SortingStep :=
  { array := arr, indices := [pos], type := .insert, codeLine := some 7 }

/-- Step pushed at `page.tsx` lines 137-143 (the `complete` step); its
`indices` are `Array.from({length: n}, (_, k) => k)`, i.e. `0, …, n-1`. -/
def completeStep (arr : List Int) (n : Nat) : SortingStep :=
  { array := arr, indices := (List.range n).map (fun k => (k : Int)),
    type := .complete, codeLine := some 0 }

/-- Binary-search loop of `generateSteps` (`page.tsx` lines 85-102): while
`low <= high`, push a probe step, then narrow.  Returns the pushed probe
steps together with the final value of `low` (the resolved position read at
line 104). -/
def searchLoop (arr : List Int) (val : Int) (i low high : Int) :
    List SortingStep × Int :=
  if _h : low ≤ high then
    let mid := (low + high) / 2
    let rest :=
      if getI arr mid < val then
        searchLoop arr val i (mid + 1) high
      else
        searchLoop arr val i low (mid - 1)
    (probeStep arr i low mid high :: rest.1, rest.2)
  else
    ([], low)
termination_by (high + 1 - low).toNat
decreasing_by
  · omega
  · omega

/-- Shift loop of `generateSteps` (`page.tsx` lines 115-125): for `j` from its
start value down to `pos + 1`, push a shift step (snapshot before the write),
then perform `arr[j] = arr[j-1]`.  Returns the pushed steps and the final
array state. -/
def shiftLoop (arr : List Int) (i pos j : Int) :
    List SortingStep × List Int :=
  if _h : pos < j then
    let arr' := arr.set j.toNat (getI arr (j - 1))
    let rest := shiftLoop arr' i pos (j - 1)
    (shiftStep arr i j :: rest.1, rest.2)
  else
    ([], arr)
termination_by (j - pos).toNat
decreasing_by
  · omega

/-- Body of one outer-loop iteration of `generateSteps` (`page.tsx` lines
71-135) for outer index `i`: search-start step, probe steps, resolved step,
shift steps, then `arr[pos] = val` and the insert step.  Returns the steps
pushed during the iteration and the array state it leaves behind. -/
def iterBlock (arr : List Int) (i : Nat) : List SortingStep × List Int :=
  let val := getI arr i
  let search := searchLoop arr val i 0 ((i : Int) - 1)
  let pos := search.2
  let shifts := shiftLoop arr i pos i
  let arr2 := shifts.2.set pos.toNat val
  (searchStartStep arr i :: search.1 ++ resolvedStep arr i pos :: shifts.1
      ++ [insertStep arr2 pos],
    arr2)

/-- Outer loop of `generateSteps` (`page.tsx` line 71): `for (let i = 1;
i < n; i++)`, run here from a general start index `i`.  Returns all steps
pushed by the remaining iterations and the final array state. -/
def outerLoop (arr : List Int) (i n : Nat) : List SortingStep × List Int :=
  if _h : i < n then
    let block := iterBlock arr i
    let rest := outerLoop block.2 (i + 1) n
    (block.1 ++ rest.1, rest.2)
  else
    ([], arr)
termination_by n - i

/-- Trace generator `generateSteps` (`page.tsx` lines 58-146): `init` step,
the outer loop from `i = 1`, then the `complete` step. -/
def generateSteps (initialArray : List Int) : List SortingStep :=
  let arr := initialArray
  let n := arr.length
  let body := outerLoop arr 1 n
  initStep arr :: body.1 ++ [completeStep body.2 n]

/-- Playback `stepForward` (`page.tsx` line 171):
`Math.min(prev + 1, steps.length - 1)` over JavaScript numbers, with
`numSteps` the length of the step list. -/
def stepForward (numSteps : Nat) (cursor : Int) : Int :=
  min (cursor + 1) ((numSteps : Int) - 1)

/-- Playback `stepBackward` (`page.tsx` line 172): `Math.max(prev - 1, 0)`. -/
def stepBackward (cursor : Int) : Int :=
  max (cursor - 1) 0

/-- Width of the search range recorded on a step (`high - low`), `0` when the
step carries no range. -/
def rangeWidth (s : SortingStep) : Int :=
  match s.searchRange with
  | some (lo, hi) => hi - lo
  | none => 0

/-- Tagged variant of the algorithm, for the spec's stability check: the spec
asks to verify stability by tagging duplicates with provenance indices before
sorting and checking that tag order survives.  These definitions lift the
loops of `generateSteps` verbatim to value-tag pairs; the comparison
`arr[mid] < val` reads only the value component, exactly as the source
compares plain numbers. -/
def getT (arr : List (Int × Nat)) (k : Int) : Int × Nat :=
  arr.getD k.toNat (0, 0)

/-- Binary-search loop of the tagged run (`page.tsx` lines 85-104): returns
the resolved position `low`. -/
def searchPosT (arr : List (Int × Nat)) (val : Int) (low high : Int) : Int :=
  if _h : low ≤ high then
    let mid := (low + high) / 2
    if (getT arr mid).1 < val then
      searchPosT arr val (mid + 1) high
    else
      searchPosT arr val low (mid - 1)
  else
    low
termination_by (high + 1 - low).toNat
decreasing_by
  · omega
  · omega

/-- Shift loop of the tagged run (`page.tsx` lines 115-125). -/
def shiftLoopT (arr : List (Int × Nat)) (pos j : Int) : List (Int × Nat) :=
  if _h : pos < j then
    shiftLoopT (arr.set j.toNat (getT arr (j - 1))) pos (j - 1)
  else
    arr
termination_by (j - pos).toNat
decreasing_by
  · omega

/-- Outer loop of the tagged run (`page.tsx` lines 71-135). -/
def outerLoopT (arr : List (Int × Nat)) (i n : Nat) : List (Int × Nat) :=
  if _h : i < n then
    let val := getT arr i
    let pos := searchPosT arr val.1 0 ((i : Int) - 1)
    outerLoopT ((shiftLoopT arr pos i).set pos.toNat val) (i + 1) n
  else
    arr
termination_by n - i

/-- Tagged binary insertion sort: the array rearrangement performed by
`generateSteps`, run on provenance-tagged values. -/
def binaryInsertionSortT (l : List (Int × Nat)) : List (Int × Nat) :=
  outerLoopT l 1 l.length

/-- Resolution of the search loop when the guard fails: returns `low`. -/
theorem searchLoop_neg (arr : List Int) (val i low high : Int)
    (h : ¬ low ≤ high) : searchLoop arr val i low high = ([], low) := by
  rw [searchLoop]; simp [h]

/-- Head of the probe list when the guard holds. -/
theorem searchLoop_head (arr : List Int) (val i low high : Int)
    (h : low ≤ high) :
    (searchLoop arr val i low high).1.head?
      = some (probeStep arr i low ((low + high) / 2) high) := by
  rw [searchLoop]; simp [h]

/-- Bounds of the resolved position: `low ≤ pos ≤ high + 1` whenever the
search starts with `low ≤ high + 1`. -/
theorem searchLoop_pos_bounds (arr : List Int) (val i : Int) :
    ∀ low high : Int, low ≤ high + 1 →
      low ≤ (searchLoop arr val i low high).2 ∧
        (searchLoop arr val i low high).2 ≤ high + 1 := by
  intro low high
  induction low, high using searchLoop.induct arr val i with
  | case1 low high hlh mid ih1 ih2 =>
    intro _
    have hmid : mid = (low + high) / 2 := rfl
    rw [hmid] at ih1 ih2
    rw [searchLoop]
    simp only [dif_pos hlh]
    split
    · have h1 := ih1 (by omega)
      constructor
      · omega
      · omega
    · have h2 := ih2 (by omega)
      constructor
      · omega
      · omega
  | case2 low high hlh =>
    intro h
    rw [searchLoop_neg arr val i low high hlh]
    exact ⟨le_refl low, h⟩

/-- Correctness of the resolved position over a region `[0, H]` on which the
array is non-decreasing: every index left of the resolved position holds a
value `< val`, every index from the resolved position up to `H` holds a value
`≥ val`. -/
theorem searchLoop_resolved_correct (arr : List Int) (val i H : Int)
    (hs : ∀ k l : Int, 0 ≤ k → k ≤ l → l ≤ H → getI arr k ≤ getI arr l) :
    ∀ low high : Int, 0 ≤ low → high ≤ H → low ≤ high + 1 →
      (∀ k : Int, 0 ≤ k → k < low → getI arr k < val) →
      (∀ k : Int, high < k → k ≤ H → val ≤ getI arr k) →
      (∀ k : Int, 0 ≤ k → k < (searchLoop arr val i low high).2 →
          getI arr k < val) ∧
      (∀ k : Int, (searchLoop arr val i low high).2 ≤ k → k ≤ H →
          val ≤ getI arr k) := by
  intro low high
  induction low, high using searchLoop.induct arr val i with
  | case1 low high hlh mid ih1 ih2 =>
    intro h0 hH _ hl hh
    have hmid : mid = (low + high) / 2 := rfl
    rw [hmid] at ih1 ih2
    have hmlo : low ≤ (low + high) / 2 := by omega
    have hmhi : (low + high) / 2 ≤ high := by omega
    rw [searchLoop]
    simp only [dif_pos hlh]
    split
    · rename_i hc
      refine ih1 (by omega) hH (by omega) ?_ hh
      intro k hk0 hk
      rcases lt_or_le k low with hkl | hkl
      · exact hl k hk0 hkl
      · exact lt_of_le_of_lt (hs k ((low + high) / 2) hk0 (by omega) (by omega)) hc
    · rename_i hc
      push_neg at hc
      refine ih2 h0 (by omega) (by omega) hl ?_
      intro k hk hkH
      exact le_trans hc (hs ((low + high) / 2) k (by omega) (by omega) hkH)
  | case2 low high hlh =>
    intro h0 hH hle hl hh
    rw [searchLoop_neg arr val i low high hlh]
    exact ⟨hl, fun k hk hkH => hh k (by omega) hkH⟩

/-- Shape of every probe step: a `probeStep` at some sub-range `(lo, hi)` of
the starting range with `lo ≤ hi`, probing its midpoint. -/
theorem searchLoop_mem_probe (arr : List Int) (val i H : Int) :
    ∀ low high : Int, 0 ≤ low → high ≤ H →
      ∀ s ∈ (searchLoop arr val i low high).1,
        ∃ lo hi : Int, 0 ≤ lo ∧ lo ≤ hi ∧ hi ≤ H ∧
          s = probeStep arr i lo ((lo + hi) / 2) hi := by
  intro low high
  induction low, high using searchLoop.induct arr val i with
  | case1 low high hlh mid ih1 ih2 =>
    intro h0 hH s hs
    have hmid : mid = (low + high) / 2 := rfl
    rw [hmid] at ih1 ih2
    have hmlo : low ≤ (low + high) / 2 := by omega
    have hmhi : (low + high) / 2 ≤ high := by omega
    rw [searchLoop] at hs
    by_cases hc : getI arr ((low + high) / 2) < val
    · simp only [dif_pos hlh, if_pos hc, List.mem_cons] at hs
      rcases hs with hs | hs
      · exact ⟨low, high, h0, hlh, hH, hs⟩
      · exact ih1 (by omega) hH s hs
    · simp only [dif_pos hlh, if_neg hc, List.mem_cons] at hs
      rcases hs with hs | hs
      · exact ⟨low, high, h0, hlh, hH, hs⟩
      · exact ih2 h0 (by omega) s hs
  | case2 low high hlh =>
    intro h0 hH s hs
    rw [searchLoop_neg arr val i low high hlh] at hs
    simp at hs

/-- Monotone narrowing: along the probe list of one binary-search run, the
width `high - low` of recorded ranges strictly decreases step to step. -/
theorem searchLoop_chain_narrow (arr : List Int) (val i : Int) :
    ∀ low high : Int,
      List.Chain' (fun s t => rangeWidth t < rangeWidth s)
        (searchLoop arr val i low high).1 := by
  intro low high
  induction low, high using searchLoop.induct arr val i with
  | case1 low high hlh mid ih1 ih2 =>
    have hmid : mid = (low + high) / 2 := rfl
    rw [hmid] at ih1 ih2
    have hmlo : low ≤ (low + high) / 2 := by omega
    have hmhi : (low + high) / 2 ≤ high := by omega
    rw [searchLoop]
    simp only [dif_pos hlh]
    by_cases hc : getI arr ((low + high) / 2) < val
    · simp only [if_pos hc]
      rw [List.chain'_cons']
      refine ⟨?_, ih1⟩
      intro y hy
      by_cases hg : (low + high) / 2 + 1 ≤ high
      · rw [searchLoop_head arr val i _ _ hg] at hy
        simp only [Option.mem_def, Option.some_inj] at hy
        subst hy
        simp only [rangeWidth, probeStep]
        omega
      · rw [searchLoop_neg arr val i _ _ hg] at hy
        simp at hy
    · simp only [if_neg hc]
      rw [List.chain'_cons']
      refine ⟨?_, ih2⟩
      intro y hy
      by_cases hg : low ≤ (low + high) / 2 - 1
      · rw [searchLoop_head arr val i _ _ hg] at hy
        simp only [Option.mem_def, Option.some_inj] at hy
        subst hy
        simp only [rangeWidth, probeStep]
        omega
      · rw [searchLoop_neg arr val i _ _ hg] at hy
        simp at hy
  | case2 low high hlh =>
    rw [searchLoop_neg arr val i low high hlh]
    exact List.chain'_nil

/-- Reading a list at an index other than the one just written. -/
theorem getElem?_set_ne {α : Type} (l : List α) (n k : Nat) (a : α)
    (h : n ≠ k) : (l.set n a)[k]? = l[k]? := by
  simp [List.getElem?_set, h]

/-- Taking at most `m ≤ n` elements ignores a write at index `n`. -/
theorem take_set_of_le {α : Type} (l : List α) (n : Nat) (a : α) (m : Nat)
    (h : m ≤ n) : (l.set n a).take m = l.take m := by
  apply List.ext_getElem?
  intro k
  by_cases hk : k < m
  · rw [List.getElem?_take, List.getElem?_take, if_pos hk, if_pos hk,
      getElem?_set_ne l n k a (by omega)]
  · rw [List.getElem?_take, List.getElem?_take, if_neg hk, if_neg hk]

/-- Dropping more than `n` elements ignores a write at index `n`. -/
theorem drop_set_of_lt {α : Type} (l : List α) (n : Nat) (a : α) (m : Nat)
    (h : n < m) : (l.set n a).drop m = l.drop m := by
  apply List.ext_getElem?
  intro k
  rw [List.getElem?_drop, List.getElem?_drop,
    getElem?_set_ne l n (m + k) a (by omega)]

/-- Array state after the first `k` assignments of the shift loop whose next
destination is `j`: assignment number `t` (for `t < k`) performs
`arr[j - t] = arr[j - t - 1]`. -/
def shiftApply (arr : List Int) (j : Int) : Nat → List Int
  | 0 => arr
  | k + 1 => shiftApply (arr.set j.toNat (getI arr (j - 1))) (j - 1) k

/-- Characterization of the shift-step list: exactly `(j - pos).toNat` steps,
and the step at index `k` is a `shiftStep` for destination `j - k` whose
snapshot is the array state before that assignment (that is, after exactly
`k` assignments). -/
theorem shiftLoop_steps :
    ∀ (arr : List Int) (i pos j : Int),
      (shiftLoop arr i pos j).1.length = (j - pos).toNat ∧
      ∀ k : Nat, k < (j - pos).toNat →
        (shiftLoop arr i pos j).1[k]?
          = some (shiftStep (shiftApply arr j k) i (j - (k : Int))) := by
  intro arr i pos j
  induction arr, i, pos, j using shiftLoop.induct with
  | case1 arr i pos j hpj arr' ih =>
    have ha : arr' = arr.set j.toNat (getI arr (j - 1)) := rfl
    rw [shiftLoop]
    simp only [dif_pos hpj]
    constructor
    · simp only [List.length_cons, ih.1]
      omega
    · intro k hk
      match k with
      | 0 =>
        simp [shiftApply]
      | k + 1 =>
        rw [List.getElem?_cons_succ, ih.2 k (by omega)]
        have harg : (j : Int) - ((k + 1 : Nat) : Int) = (j - 1) - (k : Int) := by
          push_cast
          ring
        rw [harg]
        rfl
  | case2 arr i pos j hpj =>
    rw [shiftLoop]
    simp only [dif_neg hpj]
    constructor
    · simp only [List.length_nil]
      omega
    · intro k hk
      omega

/-- Net effect of the shift loop on the array: positions `0..pos` are
untouched, positions `pos+1..j` now hold the old values of `pos..j-1`, and
positions beyond `j` are untouched. -/
theorem shiftLoop_arr :
    ∀ (arr : List Int) (i pos j : Int), 0 ≤ pos → pos ≤ j →
      j.toNat < arr.length →
      (shiftLoop arr i pos j).2
        = arr.take (pos.toNat + 1)
            ++ (arr.drop pos.toNat).take (j.toNat - pos.toNat)
            ++ arr.drop (j.toNat + 1) := by
  intro arr i pos j
  induction arr, i, pos, j using shiftLoop.induct with
  | case1 arr i pos j hpj arr' ih =>
    intro hpos _ hjlen
    have ha : arr' = arr.set j.toNat (getI arr (j - 1)) := rfl
    have hlen : arr'.length = arr.length := by
      rw [ha, List.length_set]
    rw [shiftLoop]
    simp only [dif_pos hpj]
    have hrec := ih hpos (by omega) (by omega)
    rw [hrec]
    have hJ1 : (j - 1).toNat = j.toNat - 1 := by omega
    have hPJ : pos.toNat + 1 ≤ j.toNat := by omega
    -- the prefix up to pos is untouched by the write at j
    have h1 : arr'.take (pos.toNat + 1) = arr.take (pos.toNat + 1) := by
      rw [ha, take_set_of_le arr j.toNat (getI arr (j - 1)) (pos.toNat + 1)
        (by omega)]
    -- the window pos..j-2 is untouched by the write at j
    have h2 : (arr'.drop pos.toNat).take ((j - 1).toNat - pos.toNat)
        = (arr.drop pos.toNat).take (j.toNat - 1 - pos.toNat) := by
      rw [hJ1]
      apply List.ext_getElem?
      intro k
      by_cases hk : k < j.toNat - 1 - pos.toNat
      · rw [List.getElem?_take, List.getElem?_take, if_pos hk, if_pos hk,
          List.getElem?_drop, List.getElem?_drop, ha,
          getElem?_set_ne arr j.toNat (pos.toNat + k) _ (by omega)]
      · rw [List.getElem?_take, List.getElem?_take, if_neg hk, if_neg hk]
    -- dropping past the write site exposes the written value then the old tail
    have h3 : arr'.drop ((j - 1).toNat + 1)
        = getI arr (j - 1) :: arr.drop (j.toNat + 1) := by
      have hJeq : (j - 1).toNat + 1 = j.toNat := by omega
      rw [hJeq, List.drop_eq_getElem_cons (by omega : j.toNat < arr'.length)]
      congr 1
      · simp only [ha]
        exact List.getElem_set_self _
      · rw [ha, drop_set_of_lt arr j.toNat _ (j.toNat + 1) (by omega)]
    -- the target window pos..j-1 splits off its last element, old arr[j-1]
    have h4 : (arr.drop pos.toNat).take (j.toNat - pos.toNat)
        = (arr.drop pos.toNat).take (j.toNat - 1 - pos.toNat)
            ++ [getI arr (j - 1)] := by
      have hsucc : j.toNat - pos.toNat = (j.toNat - 1 - pos.toNat) + 1 := by
        omega
      rw [hsucc, List.take_succ]
      congr 1
      rw [List.getElem?_drop]
      have hidx : pos.toNat + (j.toNat - 1 - pos.toNat) = j.toNat - 1 := by
        omega
      rw [hidx]
      have hlt : j.toNat - 1 < arr.length := by omega
      rw [List.getElem?_eq_getElem hlt]
      have : getI arr (j - 1) = arr[j.toNat - 1] := by
        rw [getI, hJ1]
        exact List.getD_eq_getElem arr 0 hlt
      rw [this]
      rfl
    rw [h1, h2, h3, h4]
    simp [List.append_assoc]
  | case2 arr i pos j hpj =>
    intro hpos hle hjlen
    have hpj2 : pos = j := by omega
    subst hpj2
    rw [shiftLoop]
    simp only [dif_neg hpj]
    rw [Nat.sub_self, List.take_zero]
    simp [List.take_append_drop]

/-- Splitting off the last element of a prefix. -/
theorem take_succ_getElem {α : Type} (l : List α) (P : Nat)
    (h : P < l.length) : l.take (P + 1) = l.take P ++ [l[P]] := by
  rw [← List.take_concat_get l P h, List.concat_eq_append]

/-- In-bounds reads through `getI` agree with list indexing. -/
theorem getI_eq_getElem (arr : List Int) (z : Int)
    (h : z.toNat < arr.length) : getI arr z = arr[z.toNat] := by
  rw [getI]
  exact List.getD_eq_getElem arr 0 h

/-- Sorted-prefix hypothesis in the index form used by the binary-search
correctness lemma: if the first `i` entries are non-decreasing, then reads at
positions `0 ≤ k ≤ l ≤ i - 1` are ordered. -/
theorem sorted_prefix_getI_mono (arr : List Int) (i : Nat)
    (hi : i ≤ arr.length) (hs : List.Sorted (· ≤ ·) (arr.take i)) :
    ∀ k l : Int, 0 ≤ k → k ≤ l → l ≤ (i : Int) - 1 →
      getI arr k ≤ getI arr l := by
  intro k l hk hkl hl
  have hlN : l.toNat < i := by omega
  have hkN : k.toNat ≤ l.toNat := by omega
  have hkA : k.toNat < arr.length := by omega
  have hlA : l.toNat < arr.length := by omega
  rw [getI_eq_getElem arr k hkA, getI_eq_getElem arr l hlA]
  rcases Nat.eq_or_lt_of_le hkN with heq | hlt
  · simp only [heq]
    exact le_rfl
  · have hlenT : (arr.take i).length = i := by
      rw [List.length_take]
      omega
    have hrel := hs.rel_get_of_lt
      (a := ⟨k.toNat, by omega⟩) (b := ⟨l.toNat, by omega⟩) (by exact hlt)
    simpa [List.get_eq_getElem, List.getElem_take] using hrel

/-- Resolved insertion position of the iteration at outer index `i`. -/
def resolvedPos (arr : List Int) (i : Nat) : Int :=
  (searchLoop arr (getI arr i) i 0 ((i : Int) - 1)).2

/-- The resolved position lies in `[0, i]`. -/
theorem resolvedPos_bounds (arr : List Int) (i : Nat) :
    0 ≤ resolvedPos arr i ∧ resolvedPos arr i ≤ (i : Int) := by
  have h := searchLoop_pos_bounds arr (getI arr i) i 0 ((i : Int) - 1)
    (by omega)
  rw [resolvedPos]
  omega

/-- Insertion form of the array state after iteration `i`: the old prefix
below the resolved position, then the inserted value, then the old window
`pos..i-1`, then the untouched tail. -/
theorem iterBlock_arr (arr : List Int) (i : Nat) (hi : i < arr.length) :
    (iterBlock arr i).2
      = arr.take (resolvedPos arr i).toNat
          ++ getI arr i
            :: ((arr.drop (resolvedPos arr i).toNat).take
                  (i - (resolvedPos arr i).toNat)
                ++ arr.drop (i + 1)) := by
  have hb := resolvedPos_bounds arr i
  set pos := resolvedPos arr i with hposdef
  set P := pos.toNat with hP
  have hPi : P ≤ i := by omega
  have hiN : ((i : Int)).toNat = i := by omega
  have hshift : (shiftLoop arr (i : Int) pos (i : Int)).2
      = arr.take (P + 1) ++ (arr.drop P).take (i - P)
          ++ arr.drop (i + 1) := by
    have := shiftLoop_arr arr (i : Int) pos (i : Int) (by omega) (by omega)
      (by omega)
    rw [this, hiN]
  show (shiftLoop arr (i : Int) pos (i : Int)).2.set P (getI arr i) = _
  rw [hshift]
  have hlenTake : (arr.take (P + 1)).length = P + 1 := by
    rw [List.length_take]
    omega
  rw [List.append_assoc, List.set_append, hlenTake, if_pos (by omega)]
  rw [take_succ_getElem arr P (by omega), List.set_append]
  have hlenP : (arr.take P).length = P := by
    rw [List.length_take]
    omega
  rw [hlenP, if_neg (by omega), Nat.sub_self]
  simp [List.append_assoc]

/-- One outer-loop iteration permutes the working array. -/
theorem iterBlock_perm (arr : List Int) (i : Nat) (hi : i < arr.length) :
    (iterBlock arr i).2.Perm arr := by
  have hb := resolvedPos_bounds arr i
  have hPi : (resolvedPos arr i).toNat ≤ i := by omega
  rw [iterBlock_arr arr i hi]
  have hsplitA : arr.take i
      = arr.take (resolvedPos arr i).toNat
          ++ (arr.drop (resolvedPos arr i).toNat).take
              (i - (resolvedPos arr i).toNat) := by
    rw [← List.take_add]
    congr 1
    omega
  have hfull : arr
      = (arr.take (resolvedPos arr i).toNat
          ++ (arr.drop (resolvedPos arr i).toNat).take
              (i - (resolvedPos arr i).toNat))
        ++ getI arr i :: arr.drop (i + 1) := by
    rw [← hsplitA, getI_eq_getElem arr i (by omega)]
    simp only [show ((i : Int)).toNat = i by omega]
    rw [← List.drop_eq_getElem_cons hi, List.take_append_drop]
  conv_rhs => rw [hfull]
  simp only [List.append_assoc]
  exact List.Perm.append_left _ List.perm_middle.symm

/-- One outer-loop iteration extends the sorted prefix by one position. -/
theorem iterBlock_sorted (arr : List Int) (i : Nat) (hi : i < arr.length)
    (hs : List.Sorted (· ≤ ·) (arr.take i)) :
    List.Sorted (· ≤ ·) ((iterBlock arr i).2.take (i + 1)) := by
  have hb := resolvedPos_bounds arr i
  have hrp : resolvedPos arr i
      = (searchLoop arr (getI arr (i : Int)) (i : Int) 0 ((i : Int) - 1)).2 :=
    rfl
  have hP : (resolvedPos arr i).toNat ≤ i := by omega
  have hres := searchLoop_resolved_correct arr (getI arr (i : Int)) (i : Int)
    ((i : Int) - 1)
    (sorted_prefix_getI_mono arr i (by omega) hs) 0 ((i : Int) - 1)
    (by omega) (by omega) (by omega)
    (by intro k hk0 hk; omega)
    (by intro k hk hkH; omega)
  rw [iterBlock_arr arr i hi]
  have hlenA : (arr.take (resolvedPos arr i).toNat).length
      = (resolvedPos arr i).toNat := by
    rw [List.length_take]
    omega
  have hlenB : ((arr.drop (resolvedPos arr i).toNat).take
        (i - (resolvedPos arr i).toNat)).length
      = i - (resolvedPos arr i).toNat := by
    rw [List.length_take, List.length_drop]
    omega
  have htake : List.take (i + 1)
        (arr.take (resolvedPos arr i).toNat
          ++ getI arr i
            :: ((arr.drop (resolvedPos arr i).toNat).take
                  (i - (resolvedPos arr i).toNat)
                ++ arr.drop (i + 1)))
      = arr.take (resolvedPos arr i).toNat
          ++ getI arr i
            :: (arr.drop (resolvedPos arr i).toNat).take
                (i - (resolvedPos arr i).toNat) := by
    have hassoc : arr.take (resolvedPos arr i).toNat
          ++ getI arr i
            :: ((arr.drop (resolvedPos arr i).toNat).take
                  (i - (resolvedPos arr i).toNat)
                ++ arr.drop (i + 1))
        = (arr.take (resolvedPos arr i).toNat
            ++ getI arr i
              :: (arr.drop (resolvedPos arr i).toNat).take
                  (i - (resolvedPos arr i).toNat))
            ++ arr.drop (i + 1) := by
      simp [List.append_assoc]
    rw [hassoc]
    apply List.take_left'
    simp only [List.length_append, List.length_cons, hlenA, hlenB]
    omega
  rw [htake]
  -- elements of the low prefix are strictly below the inserted value
  have hlowmem : ∀ x ∈ arr.take (resolvedPos arr i).toNat,
      x < getI arr i := by
    intro x hx
    rcases List.mem_iff_getElem.mp hx with ⟨k, hk, hkx⟩
    rw [hlenA] at hk
    have hkA : k < arr.length := by omega
    have hcmp := hres.1 (k : Int) (by omega) (by omega)
    rw [getI_eq_getElem arr (k : Int) (by simpa using hkA)] at hcmp
    simp only [List.getElem_take] at hkx
    simp only [show ((k : Int)).toNat = k by omega] at hcmp
    omega
  -- elements of the shifted window are at or above the inserted value
  have hhighmem : ∀ x ∈ (arr.drop (resolvedPos arr i).toNat).take
        (i - (resolvedPos arr i).toNat),
      getI arr i ≤ x := by
    intro x hx
    rcases List.mem_iff_getElem.mp hx with ⟨k, hk, hkx⟩
    rw [hlenB] at hk
    have hkA : (resolvedPos arr i).toNat + k < arr.length := by omega
    have hcmp := hres.2 (((resolvedPos arr i).toNat + k : Nat) : Int)
      (by push_cast; omega) (by push_cast; omega)
    rw [getI_eq_getElem arr (((resolvedPos arr i).toNat + k : Nat) : Int)
      (by omega)] at hcmp
    simp only [List.getElem_take, List.getElem_drop] at hkx
    simp only [show ((((resolvedPos arr i).toNat + k : Nat) : Int)).toNat
        = (resolvedPos arr i).toNat + k by omega] at hcmp
    omega
  -- the two windows are sorted as sublists of the sorted prefix
  have hsortA : List.Sorted (· ≤ ·)
      (arr.take (resolvedPos arr i).toNat) := by
    have heq : arr.take (resolvedPos arr i).toNat
        = (arr.take i).take (resolvedPos arr i).toNat := by
      rw [List.take_take]
      congr 1
      omega
    rw [heq]
    exact List.Pairwise.sublist (List.take_sublist _ _) hs
  have hsortB : List.Sorted (· ≤ ·)
      ((arr.drop (resolvedPos arr i).toNat).take
        (i - (resolvedPos arr i).toNat)) := by
    have heq : (arr.drop (resolvedPos arr i).toNat).take
          (i - (resolvedPos arr i).toNat)
        = (arr.take i).drop (resolvedPos arr i).toNat := by
      rw [List.drop_take]
    rw [heq]
    exact List.Pairwise.sublist (List.drop_sublist _ _) hs
  rw [List.Sorted, List.pairwise_append]
  refine ⟨hsortA, ?_, ?_⟩
  · rw [List.pairwise_cons]
    exact ⟨hhighmem, hsortB⟩
  · intro x hx y hy
    rcases List.mem_cons.mp hy with hy | hy
    · subst hy
      exact le_of_lt (hlowmem x hx)
    · exact le_of_lt (lt_of_lt_of_le (hlowmem x hx) (hhighmem y hy))

/-- Outer-loop invariant: starting from a working array whose first `i`
entries are sorted, the remaining iterations produce a permutation of it
that is fully sorted. -/
theorem outerLoop_sorted_perm :
    ∀ (arr : List Int) (i n : Nat), arr.length = n →
      List.Sorted (· ≤ ·) (arr.take i) →
      (outerLoop arr i n).2.Perm arr ∧
        List.Sorted (· ≤ ·) (outerLoop arr i n).2 := by
  intro arr i n
  induction arr, i, n using outerLoop.induct with
  | case1 arr i n hin block ih =>
    intro hlen hs
    have hblock : block = iterBlock arr i := rfl
    rw [outerLoop]
    simp only [dif_pos hin]
    have hperm := iterBlock_perm arr i (by omega)
    have hsorted := iterBlock_sorted arr i (by omega) hs
    have hlen2 : block.2.length = n := by
      rw [hblock, hperm.length_eq, hlen]
    have hrec := ih hlen2 (by rw [hblock]; exact hsorted)
    exact ⟨hrec.1.trans (by rw [hblock] at hrec ⊢; exact hperm), hrec.2⟩
  | case2 arr i n hin =>
    intro hlen hs
    rw [outerLoop]
    simp only [dif_neg hin]
    refine ⟨List.Perm.refl arr, ?_⟩
    rwa [List.take_of_length_le (by omega)] at hs

/-- Unfolded shape of the generated trace. -/
theorem generateSteps_eq (l : List Int) :
    generateSteps l
      = initStep l :: (outerLoop l 1 l.length).1
          ++ [completeStep (outerLoop l 1 l.length).2 l.length] := rfl

/-- The last generated step is the `complete` step over the final array. -/
theorem generateSteps_getLast (l : List Int) :
    (generateSteps l).getLast?
      = some (completeStep (outerLoop l 1 l.length).2 l.length) := by
  have h : generateSteps l
      = (initStep l :: (outerLoop l 1 l.length).1)
          ++ [completeStep (outerLoop l 1 l.length).2 l.length] := rfl
  rw [h, List.getLast?_concat]

/-- A one-element prefix is always sorted. -/
theorem sorted_take_one (l : List Int) :
    List.Sorted (· ≤ ·) (l.take 1) := by
  cases l with
  | nil => simp
  | cons a t => simp

/-- Every step pushed by the search loop is a probe step of outer index `i`. -/
theorem searchLoop_mem_shape (arr : List Int) (val i : Int) :
    ∀ low high : Int, ∀ s ∈ (searchLoop arr val i low high).1,
      ∃ lo mid hi : Int, s = probeStep arr i lo mid hi := by
  intro low high
  induction low, high using searchLoop.induct arr val i with
  | case1 low high hlh mid ih1 ih2 =>
    intro s hs
    rw [searchLoop] at hs
    by_cases hc : getI arr ((low + high) / 2) < val
    · simp only [dif_pos hlh, if_pos hc, List.mem_cons] at hs
      rcases hs with hs | hs
      · exact ⟨low, (low + high) / 2, high, hs⟩
      · exact ih1 s hs
    · simp only [dif_pos hlh, if_neg hc, List.mem_cons] at hs
      rcases hs with hs | hs
      · exact ⟨low, (low + high) / 2, high, hs⟩
      · exact ih2 s hs
  | case2 low high hlh =>
    intro s hs
    rw [searchLoop_neg arr val i low high hlh] at hs
    simp at hs

/-- Every step pushed by the shift loop is a shift step of outer index `i`. -/
theorem shiftLoop_mem_shape :
    ∀ (arr : List Int) (i pos j : Int), ∀ s ∈ (shiftLoop arr i pos j).1,
      ∃ (arr0 : List Int) (j0 : Int), s = shiftStep arr0 i j0 := by
  intro arr i pos j
  induction arr, i, pos, j using shiftLoop.induct with
  | case1 arr i pos j hpj arr' ih =>
    intro s hs
    rw [shiftLoop] at hs
    simp only [dif_pos hpj, List.mem_cons] at hs
    rcases hs with hs | hs
    · exact ⟨arr, j, hs⟩
    · exact ih s hs
  | case2 arr i pos j hpj =>
    intro s hs
    rw [shiftLoop] at hs
    simp only [dif_neg hpj] at hs
    simp at hs

/-- Case analysis for a step of the iteration block at outer index `i`. -/
theorem iterBlock_mem (arr : List Int) (i : Nat) :
    ∀ s ∈ (iterBlock arr i).1,
      s = searchStartStep arr i ∨
      (∃ lo hi : Int, 0 ≤ lo ∧ lo ≤ hi ∧ hi ≤ (i : Int) - 1 ∧
        s = probeStep arr i lo ((lo + hi) / 2) hi) ∨
      s = resolvedStep arr i (resolvedPos arr i) ∨
      (∃ (arr0 : List Int) (j0 : Int), s = shiftStep arr0 i j0) ∨
      s = insertStep (iterBlock arr i).2 (resolvedPos arr i) := by
  intro s hs
  have hblock : (iterBlock arr i).1
      = searchStartStep arr i
          :: (searchLoop arr (getI arr i) i 0 ((i : Int) - 1)).1
          ++ resolvedStep arr i (resolvedPos arr i)
            :: (shiftLoop arr i (resolvedPos arr i) i).1
          ++ [insertStep (iterBlock arr i).2 (resolvedPos arr i)] := rfl
  rw [hblock] at hs
  simp only [List.mem_cons, List.mem_append, List.mem_singleton] at hs
  rcases hs with ((hs | hs) | (hs | hs)) | (hs | hs)
  · exact Or.inl hs
  · exact Or.inr (Or.inl
      (searchLoop_mem_probe arr (getI arr i) i ((i : Int) - 1) 0
        ((i : Int) - 1) le_rfl le_rfl s hs))
  · exact Or.inr (Or.inr (Or.inl hs))
  · exact Or.inr (Or.inr (Or.inr (Or.inl
      (shiftLoop_mem_shape arr i (resolvedPos arr i) i s hs))))
  · exact Or.inr (Or.inr (Or.inr (Or.inr hs)))
  · simp at hs

/-- Case analysis for a step of the outer loop: it belongs to the iteration
block of some outer index `i' ≥ i` below `n`, run on some working array. -/
theorem outerLoop_mem :
    ∀ (arr : List Int) (i n : Nat), ∀ s ∈ (outerLoop arr i n).1,
      ∃ (arr' : List Int) (i' : Nat), i ≤ i' ∧ i' < n ∧
        s ∈ (iterBlock arr' i').1 := by
  intro arr i n
  induction arr, i, n using outerLoop.induct with
  | case1 arr i n hin block ih =>
    intro s hs
    rw [outerLoop] at hs
    simp only [dif_pos hin, List.mem_append] at hs
    rcases hs with hs | hs
    · exact ⟨arr, i, le_rfl, hin, hs⟩
    · rcases ih s hs with ⟨arr', i', hii, hin', hmem⟩
      exact ⟨arr', i', by omega, hin', hmem⟩
  | case2 arr i n hin =>
    intro s hs
    rw [outerLoop] at hs
    simp only [dif_neg hin] at hs
    simp at hs

/-- The shift steps of an iteration block are exactly the steps pushed by the
shift loop. -/
theorem iterBlock_filter_shift (arr : List Int) (i : Nat) :
    (iterBlock arr i).1.filter (fun s => s.type == SortState.shift)
      = (shiftLoop arr i (resolvedPos arr i) i).1 := by
  have hblock : (iterBlock arr i).1
      = searchStartStep arr i
          :: (searchLoop arr (getI arr i) i 0 ((i : Int) - 1)).1
          ++ resolvedStep arr i (resolvedPos arr i)
            :: (shiftLoop arr i (resolvedPos arr i) i).1
          ++ [insertStep (iterBlock arr i).2 (resolvedPos arr i)] := rfl
  have hprobe : (searchLoop arr (getI arr i) i 0 ((i : Int) - 1)).1.filter
      (fun s => s.type == SortState.shift) = [] := by
    rw [List.filter_eq_nil_iff]
    intro a ha
    rcases searchLoop_mem_shape arr (getI arr i) i 0 ((i : Int) - 1) a ha
      with ⟨lo, mid, hi, rfl⟩
    simp [probeStep]
  have hshift : (shiftLoop arr i (resolvedPos arr i) i).1.filter
        (fun s => s.type == SortState.shift)
      = (shiftLoop arr i (resolvedPos arr i) i).1 := by
    rw [List.filter_eq_self]
    intro a ha
    rcases shiftLoop_mem_shape arr i (resolvedPos arr i) i a ha
      with ⟨arr0, j0, rfl⟩
    simp [shiftStep]
  rw [hblock, List.filter_append, List.filter_append,
    List.filter_cons_of_neg (by simp [searchStartStep]), hprobe,
    List.filter_cons_of_neg (by simp [resolvedStep]), hshift,
    List.filter_cons_of_neg (by simp [insertStep]), List.filter_nil]
  simp

/-- The unique search step with a single working index in an iteration block
is the resolved-position step, and it records the resolved position. -/
theorem iterBlock_filter_resolved (arr : List Int) (i : Nat) :
    (iterBlock arr i).1.filter
        (fun s => s.type == SortState.search && s.indices.length == 1)
      = [resolvedStep arr i (resolvedPos arr i)] := by
  have hblock : (iterBlock arr i).1
      = searchStartStep arr i
          :: (searchLoop arr (getI arr i) i 0 ((i : Int) - 1)).1
          ++ resolvedStep arr i (resolvedPos arr i)
            :: (shiftLoop arr i (resolvedPos arr i) i).1
          ++ [insertStep (iterBlock arr i).2 (resolvedPos arr i)] := rfl
  have hprobe : (searchLoop arr (getI arr i) i 0 ((i : Int) - 1)).1.filter
      (fun s => s.type == SortState.search && s.indices.length == 1)
        = [] := by
    rw [List.filter_eq_nil_iff]
    intro a ha
    rcases searchLoop_mem_shape arr (getI arr i) i 0 ((i : Int) - 1) a ha
      with ⟨lo, mid, hi, rfl⟩
    simp [probeStep]
  have hshift : (shiftLoop arr i (resolvedPos arr i) i).1.filter
      (fun s => s.type == SortState.search && s.indices.length == 1)
        = [] := by
    rw [List.filter_eq_nil_iff]
    intro a ha
    rcases shiftLoop_mem_shape arr i (resolvedPos arr i) i a ha
      with ⟨arr0, j0, rfl⟩
    simp [shiftStep]
  rw [hblock, List.filter_append, List.filter_append,
    List.filter_cons_of_neg (by simp [searchStartStep]), hprobe,
    List.filter_cons_of_pos (by simp [resolvedStep]), hshift,
    List.filter_cons_of_neg (by simp [insertStep]), List.filter_nil]
  simp

/-- The unique insert step of an iteration block carries the iteration's
final array and the resolved position. -/
theorem iterBlock_filter_insert (arr : List Int) (i : Nat) :
    (iterBlock arr i).1.filter (fun s => s.type == SortState.insert)
      = [insertStep (iterBlock arr i).2 (resolvedPos arr i)] := by
  have hblock : (iterBlock arr i).1
      = searchStartStep arr i
          :: (searchLoop arr (getI arr i) i 0 ((i : Int) - 1)).1
          ++ resolvedStep arr i (resolvedPos arr i)
            :: (shiftLoop arr i (resolvedPos arr i) i).1
          ++ [insertStep (iterBlock arr i).2 (resolvedPos arr i)] := rfl
  have hprobe : (searchLoop arr (getI arr i) i 0 ((i : Int) - 1)).1.filter
      (fun s => s.type == SortState.insert) = [] := by
    rw [List.filter_eq_nil_iff]
    intro a ha
    rcases searchLoop_mem_shape arr (getI arr i) i 0 ((i : Int) - 1) a ha
      with ⟨lo, mid, hi, rfl⟩
    simp [probeStep]
  have hshift : (shiftLoop arr i (resolvedPos arr i) i).1.filter
      (fun s => s.type == SortState.insert) = [] := by
    rw [List.filter_eq_nil_iff]
    intro a ha
    rcases shiftLoop_mem_shape arr i (resolvedPos arr i) i a ha
      with ⟨arr0, j0, rfl⟩
    simp [shiftStep]
  rw [hblock, List.filter_append, List.filter_append,
    List.filter_cons_of_neg (by simp [searchStartStep]), hprobe,
    List.filter_cons_of_neg (by simp [resolvedStep]), hshift,
    List.filter_cons_of_pos (by simp [insertStep]), List.filter_nil]
  simp

/-- Invariant of the insert-step snapshots: the `k`-th insert step emitted
from start index `i` onward snapshots an array that is a permutation of the
original input and whose first `i + k + 1` entries are sorted. -/
theorem outerLoop_insert_invariant :
    ∀ (arr : List Int) (i n : Nat), ∀ l : List Int, arr.length = n →
      arr.Perm l → List.Sorted (· ≤ ·) (arr.take i) →
      ∀ (k : Nat) (s : SortingStep),
        ((outerLoop arr i n).1.filter
            (fun t => t.type == SortState.insert))[k]? = some s →
        s.array.Perm l ∧
          List.Sorted (· ≤ ·) (s.array.take (i + k + 1)) := by
  intro arr i n
  induction arr, i, n using outerLoop.induct with
  | case1 arr i n hin block ih =>
    intro l hlen hperm hsorted k s hstep
    have hblock : block = iterBlock arr i := rfl
    rw [hblock] at ih
    rw [outerLoop] at hstep
    simp only [dif_pos hin, List.filter_append] at hstep
    rw [iterBlock_filter_insert arr i] at hstep
    have hbperm : (iterBlock arr i).2.Perm arr :=
      iterBlock_perm arr i (by omega)
    have hbsorted := iterBlock_sorted arr i (by omega) hsorted
    match k with
    | 0 =>
      simp only [List.singleton_append, List.getElem?_cons_zero,
        Option.some_inj] at hstep
      subst hstep
      exact ⟨hbperm.trans hperm, hbsorted⟩
    | k + 1 =>
      simp only [List.singleton_append, List.getElem?_cons_succ] at hstep
      have hrec := ih l (by rw [hbperm.length_eq, hlen])
        (hbperm.trans hperm) hbsorted k s hstep
      refine ⟨hrec.1, ?_⟩
      have harith : i + (k + 1) + 1 = (i + 1) + k + 1 := by omega
      rw [harith]
      exact hrec.2
  | case2 arr i n hin =>
    intro l hlen hperm hsorted k s hstep
    rw [outerLoop] at hstep
    simp only [dif_neg hin, List.filter_nil, List.getElem?_nil] at hstep
    exact Option.noConfusion hstep

/-- The `k`-th insert step of a full trace snapshots a permutation of the
input, sorted on its first `k + 2` entries (its iteration is `i = k + 1`). -/
theorem generateSteps_insert_steps (l : List Int) (k : Nat)
    (s : SortingStep)
    (h : ((generateSteps l).filter
        (fun t => t.type == SortState.insert))[k]? = some s) :
    s.array.Perm l ∧ List.Sorted (· ≤ ·) (s.array.take (k + 2)) := by
  have hfilter : (generateSteps l).filter
        (fun t => t.type == SortState.insert)
      = ((outerLoop l 1 l.length).1).filter
          (fun t => t.type == SortState.insert) := by
    rw [generateSteps_eq, List.filter_append,
      List.filter_cons_of_neg (by simp [initStep]),
      List.filter_cons_of_neg (by simp [completeStep]), List.filter_nil,
      List.append_nil]
  rw [hfilter] at h
  have := outerLoop_insert_invariant l 1 l.length l rfl (List.Perm.refl l)
    (sorted_take_one l) k s h
  have harith : 1 + k + 1 = k + 2 := by omega
  rw [harith] at this
  exact this

/-- Adjacent elements of a list satisfying `Chain' R` are `R`-related. -/
theorem chain'_getElem? {α : Type} {R : α → α → Prop} :
    ∀ {l : List α}, List.Chain' R l →
      ∀ (k : Nat) (s t : α), l[k]? = some s → l[k + 1]? = some t → R s t := by
  intro l
  induction l with
  | nil =>
    intro _ k s t hs _
    simp at hs
  | cons a tl ih =>
    intro hchain k s t hs ht
    match tl, k with
    | [], 0 => simp at ht
    | [], k + 1 => simp at ht
    | b :: tl2, 0 =>
      simp only [List.getElem?_cons_zero, Option.some_inj] at hs
      rw [List.getElem?_cons_succ, List.getElem?_cons_zero] at ht
      injection ht with ht
      subst hs
      subst ht
      exact (List.chain'_cons.mp hchain).1
    | b :: tl2, k + 1 =>
      rw [List.getElem?_cons_succ] at hs ht
      exact ih (List.chain'_cons.mp hchain).2 k s t hs ht

/-- Iterating `stepForward` from cursor `0` saturates at the last index. -/
theorem stepForward_iterate (len : Nat) (hlen : 1 ≤ len) :
    ∀ k : Nat, (stepForward len)^[k] 0 = min (k : Int) ((len : Int) - 1) := by
  intro k
  induction k with
  | zero =>
    simp only [Function.iterate_zero_apply, Nat.cast_zero]
    omega
  | succ k ih =>
    rw [Function.iterate_succ_apply', ih, stepForward]
    push_cast
    omega

/-- Concrete trace for the input `[2, 1]`. -/
theorem generateSteps_two_one :
    generateSteps [2, 1]
      = [initStep [2, 1], searchStartStep [2, 1] 1,
         probeStep [2, 1] 1 0 0 0, resolvedStep [2, 1] 1 0,
         shiftStep [2, 1] 1 1, insertStep [1, 2] 0,
         completeStep [1, 2] 2] := by
  simp [generateSteps, outerLoop, iterBlock, searchLoop, shiftLoop, getI]

/-- Concrete trace for the input `[3, 2, 1]`. -/
theorem generateSteps_three_two_one :
    generateSteps [3, 2, 1]
      = [initStep [3, 2, 1], searchStartStep [3, 2, 1] 1,
         probeStep [3, 2, 1] 1 0 0 0, resolvedStep [3, 2, 1] 1 0,
         shiftStep [3, 2, 1] 1 1, insertStep [2, 3, 1] 0,
         searchStartStep [2, 3, 1] 2, probeStep [2, 3, 1] 2 0 0 1,
         resolvedStep [2, 3, 1] 2 0,
         shiftStep [2, 3, 1] 2 2, shiftStep [2, 3, 3] 2 1,
         insertStep [1, 2, 3] 0, completeStep [1, 2, 3] 3] := by
  simp [generateSteps, outerLoop, iterBlock, searchLoop, shiftLoop, getI]

/-- C1: for every finite input array, the `array` field of the final
(`complete`) step produced by `generateSteps` is sorted in non-decreasing
order and is a permutation of the input (equal multiset of values). -/
theorem C1_final_step_sorted_perm (l : List Int) :
    ∃ s : SortingStep, (generateSteps l).getLast? = some s ∧
      s.type = SortState.complete ∧
      List.Sorted (· ≤ ·) s.array ∧ s.array.Perm l := by
  refine ⟨completeStep (outerLoop l 1 l.length).2 l.length,
    generateSteps_getLast l, rfl, ?_, ?_⟩
  · exact (outerLoop_sorted_perm l 1 l.length rfl (sorted_take_one l)).2
  · exact (outerLoop_sorted_perm l 1 l.length rfl (sorted_take_one l)).1

/-- C3: `generateSteps` is total and, for every input (including the empty
array), returns a non-empty sequence starting with the `init` step and
ending with the `complete` step; for `n ≤ 1` the trace is exactly these two
steps, so it contains no `search`, `shift`, or `insert` step. -/
theorem C3_totality_endpoints (l : List Int) :
    generateSteps l ≠ [] ∧
    (generateSteps l).head?.map SortingStep.type = some SortState.init ∧
    (generateSteps l).getLast?.map SortingStep.type
      = some SortState.complete ∧
    (l.length ≤ 1 →
      generateSteps l = [initStep l, completeStep l l.length]) := by
  refine ⟨?_, ?_, ?_, ?_⟩
  · rw [generateSteps_eq]
    simp
  · rw [generateSteps_eq]
    rfl
  · rw [generateSteps_getLast]
    rfl
  · intro hl
    have houter : outerLoop l 1 l.length = ([], l) := by
      rw [outerLoop]
      simp only [dif_neg (by omega : ¬ 1 < l.length)]
    rw [generateSteps_eq, houter]
    rfl

/-- C3 witness: the one-element input `[5]` satisfies the length bound and
yields exactly the two-step trace. -/
theorem C3_totality_endpoints_witness :
    ([5] : List Int).length ≤ 1 ∧
      generateSteps [5] = [initStep [5], completeStep [5] 1] := by
  refine ⟨by decide, ?_⟩
  have h := (C3_totality_endpoints [5]).2.2.2 (by decide)
  simpa using h

/-- C7 (amended): the first step emitted for outer-loop iteration `i` is a
`search` step with `targetIndex = i` and empty `workingIndices` (no mid
index), but it carries NO `searchRange` field: the initial range `(0, i-1)`
appears only in the narration text, not in the `searchRange` field. -/
theorem C7_search_start_amended (arr : List Int) (i : Nat) :
    (iterBlock arr i).1.head? = some (searchStartStep arr i) ∧
    (searchStartStep arr (i : Int)).type = SortState.search ∧
    (searchStartStep arr (i : Int)).targetIdx = some (i : Int) ∧
    (searchStartStep arr (i : Int)).indices = [] ∧
    (searchStartStep arr (i : Int)).searchRange = none :=
  ⟨rfl, rfl, rfl, rfl, rfl⟩

/-- C7 counterexample: in the trace of `[2, 1]`, the first step of iteration
`i = 1` (trace position 1) is the search-start step, and its `searchRange`
is absent — not `some (0, 0)` as the claim (`searchRange = (0, i-1)`)
requires. -/
theorem C7_search_start_counterexample :
    ∃ s : SortingStep, (generateSteps [2, 1])[1]? = some s ∧
      s.type = SortState.search ∧ s.targetIdx = some 1 ∧ s.indices = [] ∧
      s.searchRange = none ∧ s.searchRange ≠ some (0, 0) := by
  refine ⟨searchStartStep [2, 1] 1, ?_, rfl, rfl, rfl, rfl,
    by simp [searchStartStep]⟩
  rw [generateSteps_two_one]
  rfl

/-- C6 (amended): `search` and `shift` steps carry `targetIndex` (equal to
the outer-loop cursor `i` of the iteration that produced them), while
`init` and `complete` steps — and, contrary to the claim, also `insert`
steps — carry no `targetIndex`. -/
theorem C6_targetIdx_amended :
    (∀ (arr : List Int) (i : Nat), ∀ s ∈ (iterBlock arr i).1,
      ((s.type = SortState.search ∨ s.type = SortState.shift) →
        s.targetIdx = some (i : Int)) ∧
      (s.type = SortState.insert → s.targetIdx = none)) ∧
    (∀ l : List Int, ∀ s ∈ generateSteps l,
      ((s.type = SortState.init ∨ s.type = SortState.insert ∨
          s.type = SortState.complete) → s.targetIdx = none) ∧
      ((s.type = SortState.search ∨ s.type = SortState.shift) →
        ∃ tgt : Int, s.targetIdx = some tgt)) := by
  have hblockfacts : ∀ (arr : List Int) (i : Nat),
      ∀ s ∈ (iterBlock arr i).1,
        ((s.type = SortState.search ∨ s.type = SortState.shift) →
          s.targetIdx = some (i : Int)) ∧
        (s.type = SortState.insert → s.targetIdx = none) := by
    intro arr i s hs
    rcases iterBlock_mem arr i s hs with
      rfl | ⟨lo, hi, _, _, _, rfl⟩ | rfl | ⟨arr0, j0, rfl⟩ | rfl
    · exact ⟨fun _ => rfl, by simp [searchStartStep]⟩
    · exact ⟨fun _ => rfl, by simp [probeStep]⟩
    · exact ⟨fun _ => rfl, by simp [resolvedStep]⟩
    · exact ⟨fun _ => rfl, by simp [shiftStep]⟩
    · exact ⟨by simp [insertStep], fun _ => rfl⟩
  refine ⟨hblockfacts, ?_⟩
  intro l s hs
  rw [generateSteps_eq] at hs
  simp only [List.mem_append, List.mem_cons, List.mem_singleton] at hs
  rcases hs with (rfl | hs) | (rfl | hfalse)
  · exact ⟨fun _ => rfl, by simp [initStep]⟩
  · rcases outerLoop_mem l 1 l.length s hs with ⟨arr', i', _, _, hmem⟩
    have hfacts := hblockfacts arr' i' s hmem
    refine ⟨?_, ?_⟩
    · intro htype
      rcases htype with htype | htype | htype
      · rcases iterBlock_mem arr' i' s hmem with
          rfl | ⟨lo, hi, _, _, _, rfl⟩ | rfl | ⟨arr0, j0, rfl⟩ | rfl
        · simp [searchStartStep] at htype
        · simp [probeStep] at htype
        · simp [resolvedStep] at htype
        · simp [shiftStep] at htype
        · simp [insertStep]
      · exact hfacts.2 htype
      · rcases iterBlock_mem arr' i' s hmem with
          rfl | ⟨lo, hi, _, _, _, rfl⟩ | rfl | ⟨arr0, j0, rfl⟩ | rfl
        · simp [searchStartStep] at htype
        · simp [probeStep] at htype
        · simp [resolvedStep] at htype
        · simp [shiftStep] at htype
        · simp [insertStep]
    · intro htype
      exact ⟨(i' : Int), hfacts.1 htype⟩
  · exact ⟨fun _ => rfl, by simp [completeStep]⟩
  · simp at hfalse

/-- C6 counterexample: the trace of `[2, 1]` contains an `insert` step with
no `targetIndex`, refuting the claim that every `insert` step carries one. -/
theorem C6_targetIdx_counterexample :
    ∃ s ∈ generateSteps [2, 1],
      s.type = SortState.insert ∧ s.targetIdx = none := by
  refine ⟨insertStep [1, 2] 0, ?_, rfl, rfl⟩
  rw [generateSteps_two_one]
  simp

/-- C6 witness: the amended theorem applied to the `init` step of the trace
of `[2, 1]` shows its `targetIndex` is absent. -/
theorem C6_targetIdx_amended_witness :
    initStep [2, 1] ∈ generateSteps [2, 1] ∧
      (initStep [2, 1]).type = SortState.init ∧
      (initStep [2, 1]).targetIdx = none := by
  have hmem : initStep [2, 1] ∈ generateSteps [2, 1] := by
    rw [generateSteps_two_one]
    simp
  exact ⟨hmem, rfl,
    (C6_targetIdx_amended.2 [2, 1] (initStep [2, 1]) hmem).1 (Or.inl rfl)⟩

/-- C8: within the binary-search sub-run of a single outer index, each
successive probe step's recorded `(low, high)` range is strictly narrower in
width `high - low` than the previous probe step's range. -/
theorem C8_monotone_narrowing (arr : List Int) (val i low high : Int)
    (k : Nat) (s1 s2 : SortingStep)
    (h1 : (searchLoop arr val i low high).1[k]? = some s1)
    (h2 : (searchLoop arr val i low high).1[k + 1]? = some s2)
    (lo1 hi1 lo2 hi2 : Int)
    (hr1 : s1.searchRange = some (lo1, hi1))
    (hr2 : s2.searchRange = some (lo2, hi2)) :
    hi2 - lo2 < hi1 - lo1 := by
  have hchain := searchLoop_chain_narrow arr val i low high
  have hrel := chain'_getElem? hchain k s1 s2 h1 h2
  simp only [rangeWidth, hr1, hr2] at hrel
  exact hrel

/-- C8 witness: for the input `[3, 5, 8]` and value `1`, the search over
`[0, 2]` produces two probes, with ranges `(0, 2)` then `(0, 0)`: the width
shrinks from `2` to `0`. -/
theorem C8_monotone_narrowing_witness :
    (searchLoop [3, 5, 8] 1 3 0 2).1[0]?
        = some (probeStep [3, 5, 8] 3 0 1 2) ∧
    (searchLoop [3, 5, 8] 1 3 0 2).1[1]?
        = some (probeStep [3, 5, 8] 3 0 0 0) ∧
    (probeStep [3, 5, 8] 3 0 1 2).searchRange = some (0, 2) ∧
    (probeStep [3, 5, 8] 3 0 0 0).searchRange = some (0, 0) ∧
    (0 : Int) - 0 < 2 - 0 := by
  have hs : (searchLoop [3, 5, 8] 1 3 0 2).1
      = [probeStep [3, 5, 8] 3 0 1 2, probeStep [3, 5, 8] 3 0 0 0] := by
    simp [searchLoop, getI]
  refine ⟨by rw [hs]; rfl, by rw [hs]; rfl, rfl, rfl, ?_⟩
  exact C8_monotone_narrowing [3, 5, 8] 1 3 0 2 0 _ _
    (by rw [hs]; rfl) (by rw [hs]; rfl) 0 2 0 0 rfl rfl

/-- C9: for a non-empty trace of `len` steps and a cursor inside
`[0, len-1]`, `stepForward` and `stepBackward` keep the cursor inside
`[0, len-1]`; `stepForward` advances by one, clamped (a no-op at the last
index), `stepBackward` decrements, clamped at `0`; and `len` applications of
`stepForward` from `0` land exactly on the last index, where all further
applications are no-ops. -/
theorem C9_playback_bounds (len : Nat) (c : Int) (hlen : 1 ≤ len)
    (hc0 : 0 ≤ c) (hc1 : c ≤ (len : Int) - 1) :
    (0 ≤ stepForward len c ∧ stepForward len c ≤ (len : Int) - 1) ∧
    (0 ≤ stepBackward c ∧ stepBackward c ≤ (len : Int) - 1) ∧
    (c = (len : Int) - 1 → stepForward len c = c) ∧
    (c < (len : Int) - 1 → stepForward len c = c + 1) ∧
    (1 ≤ c → stepBackward c = c - 1) ∧
    stepBackward 0 = 0 ∧
    (stepForward len)^[len] 0 = (len : Int) - 1 ∧
    stepForward len ((stepForward len)^[len] 0)
      = (stepForward len)^[len] 0 := by
  have hiter := stepForward_iterate len hlen len
  refine ⟨⟨?_, ?_⟩, ⟨?_, ?_⟩, ?_, ?_, ?_, ?_, ?_, ?_⟩
  · simp only [stepForward]
    omega
  · simp only [stepForward]
    omega
  · simp only [stepBackward]
    omega
  · simp only [stepBackward]
    omega
  · intro h
    simp only [stepForward]
    omega
  · intro h
    simp only [stepForward]
    omega
  · intro h
    simp only [stepBackward]
    omega
  · simp only [stepBackward]
    omega
  · rw [hiter]
    omega
  · rw [hiter]
    simp only [stepForward]
    omega

/-- C9 witness: for a trace of `3` steps and cursor `1`, the bounds hold and
three forward steps from `0` land on the last index `2`. -/
theorem C9_playback_bounds_witness :
    (0 ≤ stepForward 3 1 ∧ stepForward 3 1 ≤ ((3 : Nat) : Int) - 1) ∧
    (stepForward 3)^[3] 0 = ((3 : Nat) : Int) - 1 := by
  have h := C9_playback_bounds 3 1 (by decide) (by decide) (by norm_num)
  exact ⟨h.1, h.2.2.2.2.2.2.1⟩

/-- C4: in the iteration block of outer index `i`, the resolved `search`
step records `pos` in its working indices, `pos` lies in `[0, i]`, and the
block contains exactly `i - pos` shift steps — the steps of the shift loop —
where the `k`-th one is a `shiftStep` for destination `j = i - k` (working
indices `[j, j-1]`) whose array snapshot is the state after exactly `k`
assignments, i.e. before its own assignment `arr[j] = arr[j-1]`. -/
theorem C4_shift_phase (arr : List Int) (i : Nat) :
    (iterBlock arr i).1.filter
        (fun s => s.type == SortState.search && s.indices.length == 1)
      = [resolvedStep arr i (resolvedPos arr i)] ∧
    (resolvedStep arr i (resolvedPos arr i)).indices
      = [resolvedPos arr i] ∧
    0 ≤ resolvedPos arr i ∧ resolvedPos arr i ≤ (i : Int) ∧
    (iterBlock arr i).1.filter (fun s => s.type == SortState.shift)
      = (shiftLoop arr i (resolvedPos arr i) i).1 ∧
    ((iterBlock arr i).1.filter
        (fun s => s.type == SortState.shift)).length
      = ((i : Int) - resolvedPos arr i).toNat ∧
    ∀ k : Nat, k < ((i : Int) - resolvedPos arr i).toNat →
      ((iterBlock arr i).1.filter
          (fun s => s.type == SortState.shift))[k]?
        = some (shiftStep (shiftApply arr i k) i ((i : Int) - (k : Int))) := by
  have hb := resolvedPos_bounds arr i
  have hfs := iterBlock_filter_shift arr i
  have hsteps := shiftLoop_steps arr (i : Int) (resolvedPos arr i) (i : Int)
  refine ⟨iterBlock_filter_resolved arr i, rfl, hb.1, hb.2, hfs, ?_, ?_⟩
  · rw [hfs]
    exact hsteps.1
  · intro k hk
    rw [hfs]
    exact hsteps.2 k hk

/-- C4 witness: for input `[2, 1]` at `i = 1` the resolved position is `0`,
there is exactly one shift step, and its snapshot is the unmodified array. -/
theorem C4_shift_phase_witness :
    resolvedPos [2, 1] 1 = 0 ∧
    ((iterBlock [2, 1] 1).1.filter
        (fun s => s.type == SortState.shift)).length = 1 ∧
    ((iterBlock [2, 1] 1).1.filter
        (fun s => s.type == SortState.shift))[0]?
      = some (shiftStep [2, 1] 1 1) := by
  have hpos : resolvedPos [2, 1] 1 = 0 := by
    simp [resolvedPos, searchLoop, getI]
  have h := C4_shift_phase [2, 1] 1
  refine ⟨hpos, ?_, ?_⟩
  · rw [h.2.2.2.2.2.1, hpos]
    rfl
  · have h0 := h.2.2.2.2.2.2 0 (by rw [hpos]; decide)
    rw [h0]
    simp [shiftApply]

/-- C5: every `search` step carrying a `searchRange (lo, hi)` satisfies
`0 ≤ lo ≤ hi + 1 ≤ targetIndex`; when the loop guard fails (`low > high`)
the search resolves to `low`, and the next emitted step of the block is the
resolved step, the unique single-index search step, recording that position
in its working indices. -/
theorem C5_searchRange_invariant :
    (∀ l : List Int, ∀ s ∈ generateSteps l, ∀ lo hi : Int,
        s.searchRange = some (lo, hi) →
          ∃ tgt : Int, s.targetIdx = some tgt ∧
            0 ≤ lo ∧ lo ≤ hi + 1 ∧ hi + 1 ≤ tgt) ∧
    (∀ (arr : List Int) (val i low high : Int), ¬ low ≤ high →
        searchLoop arr val i low high = ([], low)) ∧
    (∀ (arr : List Int) (i : Nat),
        (iterBlock arr i).1.filter
            (fun s => s.type == SortState.search && s.indices.length == 1)
          = [resolvedStep arr i (resolvedPos arr i)] ∧
        (resolvedStep arr i (resolvedPos arr i)).indices
          = [resolvedPos arr i]) := by
  refine ⟨?_, searchLoop_neg, fun arr i =>
    ⟨iterBlock_filter_resolved arr i, rfl⟩⟩
  intro l s hs lo hi hr
  rw [generateSteps_eq] at hs
  simp only [List.mem_append, List.mem_cons, List.mem_singleton] at hs
  rcases hs with (rfl | hs) | (rfl | hfalse)
  · simp [initStep] at hr
  · rcases outerLoop_mem l 1 l.length s hs with ⟨arr', i', _, _, hmem⟩
    rcases iterBlock_mem arr' i' s hmem with
      rfl | ⟨lo', hi', h0, hlh, hH, rfl⟩ | rfl | ⟨arr0, j0, rfl⟩ | rfl
    · simp [searchStartStep] at hr
    · have hpair : lo' = lo ∧ hi' = hi := by
        simpa [probeStep, Prod.ext_iff] using hr
      refine ⟨(i' : Int), rfl, ?_, ?_, ?_⟩
      · omega
      · omega
      · omega
    · simp [resolvedStep] at hr
    · simp [shiftStep] at hr
    · simp [insertStep] at hr
  · simp [completeStep] at hr
  · simp at hfalse

/-- C5 witness: the probe step of the trace of `[2, 1]` carries range
`(0, 0)` and target index `1`, satisfying `0 ≤ 0 ≤ 0 + 1 ≤ 1`. -/
theorem C5_searchRange_invariant_witness :
    probeStep [2, 1] 1 0 0 0 ∈ generateSteps [2, 1] ∧
    (probeStep [2, 1] 1 0 0 0).searchRange = some (0, 0) ∧
    (∃ tgt : Int, (probeStep [2, 1] 1 0 0 0).targetIdx = some tgt ∧
      0 ≤ (0 : Int) ∧ (0 : Int) ≤ 0 + 1 ∧ (0 : Int) + 1 ≤ tgt) := by
  have hmem : probeStep [2, 1] 1 0 0 0 ∈ generateSteps [2, 1] := by
    rw [generateSteps_two_one]
    simp
  exact ⟨hmem, rfl, C5_searchRange_invariant.1 [2, 1] _ hmem 0 0 rfl⟩

/-- C10: the `k`-th insert step of a trace (ending iteration `i = k + 1`)
snapshots an array that is a permutation of the input and sorted on its
prefix `[0..i]` (the first `k + 2` entries) — while shift-phase snapshots
can duplicate a value and fail to be permutations of the input, as the
trace of `[3, 2, 1]` shows. -/
theorem C10_insert_snapshot_invariant :
    (∀ (l : List Int) (k : Nat) (s : SortingStep),
        ((generateSteps l).filter
            (fun t => t.type == SortState.insert))[k]? = some s →
        s.array.Perm l ∧ List.Sorted (· ≤ ·) (s.array.take (k + 2))) ∧
    (∃ s ∈ generateSteps [3, 2, 1], s.type = SortState.shift ∧
      ¬ s.array.Nodup ∧ ¬ s.array.Perm [3, 2, 1]) := by
  refine ⟨fun l k s h => generateSteps_insert_steps l k s h, ?_⟩
  refine ⟨shiftStep [2, 3, 3] 2 1, ?_, rfl, ?_, ?_⟩
  · rw [generateSteps_three_two_one]
    simp
  · decide
  · decide

/-- C10 witness: in the trace of `[2, 1]` the first insert step snapshots
`[1, 2]`, a sorted permutation of the input. -/
theorem C10_insert_snapshot_invariant_witness :
    ((generateSteps [2, 1]).filter
        (fun t => t.type == SortState.insert))[0]?
      = some (insertStep [1, 2] 0) ∧
    (insertStep [1, 2] 0).array.Perm [2, 1] ∧
    List.Sorted (· ≤ ·) ((insertStep [1, 2] 0).array.take 2) := by
  have hf : (generateSteps [2, 1]).filter
        (fun t => t.type == SortState.insert)
      = [insertStep [1, 2] 0] := by
    rw [generateSteps_two_one]
    decide
  have h := C10_insert_snapshot_invariant.1 [2, 1] 0 (insertStep [1, 2] 0)
    (by rw [hf]; rfl)
  exact ⟨by rw [hf]; rfl, h.1, h.2⟩

/-- C2: running the source algorithm on the provenance-tagged inputs
`[(2,0), (2,1)]` and `[(2,0), (2,1), (2,2)]` (equal values tagged with
their original positions, compared on values only, per the spec's stability
check) REVERSES the tag order: the `high = mid - 1` branch on equality is a
lower-bound tie-break, which places each later-inserted equal element to
the left of earlier ones.  The value multiset is unchanged, so the bug is
invisible on plain numbers, but the sort is not stable as the claim, the
spec, and the UI's "Stable" badge state. -/
theorem C2_stability_tagged_eval :
    binaryInsertionSortT [(2, 0), (2, 1)] = [(2, 1), (2, 0)] ∧
    binaryInsertionSortT [(2, 0), (2, 1), (2, 2)]
      = [(2, 2), (2, 1), (2, 0)] ∧
    (binaryInsertionSortT [(2, 0), (2, 1)]).map Prod.fst = [2, 2] ∧
    binaryInsertionSortT [(2, 0), (2, 1)] ≠ [(2, 0), (2, 1)] := by
  have h2 : binaryInsertionSortT [(2, 0), (2, 1)] = [(2, 1), (2, 0)] := by
    simp [binaryInsertionSortT, outerLoopT, searchPosT, shiftLoopT, getT]
  have h3 : binaryInsertionSortT [(2, 0), (2, 1), (2, 2)]
      = [(2, 2), (2, 1), (2, 0)] := by
    simp [binaryInsertionSortT, outerLoopT, searchPosT, shiftLoopT, getT]
  refine ⟨h2, h3, by rw [h2]; rfl, by rw [h2]; decide⟩
